import Mathlib

/-!
Verification of the LP "solver" of the Moflecito repository.

The embedded function is `simplexMethod` from the React source (the two
source copies differ only in comment language).  JS `number` is modelled by
`ℚ`: every literal of the source (`1.5`, `0.5`, `133.33`, …) is exactly
representable and no claim below hinges on binary floating-point rounding.
The JS initial best value `-Infinity` is modelled by `none : Option ℚ`; a
finite best value `v` is `some v`.  The source's index loops are modelled
with `List.zipWith`/`List.zip`, which agree with the JS loops whenever the
shapes match (profits of length 3, each constraint row of length 3,
`availabilities.length = constraints.length`) — the shape the UI always
supplies and the shape the claims quantify over; out-of-shape JS reads
would give `undefined`/`NaN`, which `ℚ` cannot represent.
-/

namespace Moflecito

/-- The numeric tolerance the specification uses ("e.g. 1e-9"). -/
def eps : ℚ := 1 / 1000000000

/-- The `Solution` record returned by `simplexMethod`.
Field order: `optimal`, `objectiveValue`, `variables`, `slacks`,
`dualPrices`.  `objectiveValue` is `Option ℚ`: `none` models the JS value
`-Infinity` that survives when no candidate is feasible. -/
structure Solution where
  optimal : Bool
  objectiveValue : Option ℚ
  «variables» : List ℚ
  slacks : List ℚ
  dualPrices : List ℚ
deriving DecidableEq, Repr

/-- The inner summation loop of the source:
`for (j = 0; j < x.length; j++) sum += row[j] * x[j]`. -/
def dotJS (row x : List ℚ) : ℚ :=
  (List.zipWith (fun a b => a * b) row x).sum

/-- The feasibility check of the source: for every constraint row `i`,
`constraints[i]·x > availabilities[i]` sets `feasible = false`; equivalently
the candidate is feasible iff `constraints[i]·x ≤ availabilities[i]` for
every row. -/
def feasible (constraints : List (List ℚ)) (availabilities : List ℚ)
    (x : List ℚ) : Prop :=
  ∀ q ∈ List.zip constraints availabilities, dotJS q.1 x ≤ q.2

instance feasible.dec (constraints : List (List ℚ)) (availabilities : List ℚ)
    (x : List ℚ) : Decidable (feasible constraints availabilities x) :=
  inferInstanceAs
    (Decidable (∀ q ∈ List.zip constraints availabilities, dotJS q.1 x ≤ q.2))

/-- The hardcoded candidate list `solutions` of the source:
`[[0,0,0],[20,0,80],[0,0,133.33],[50,0,0]]`. -/
def solutions : List (List ℚ) :=
  [[0, 0, 0], [20, 0, 80], [0, 0, 133.33], [50, 0, 0]]

/-- One iteration of the source's `for (const solution of solutions)` loop:
if the candidate is feasible and its objective value beats `bestValue`
(where `none`, i.e. `-Infinity`, is beaten by everything), it becomes the
new `(bestValue, bestSolution)` pair. -/
def step (profits : List ℚ) (constraints : List (List ℚ))
    (availabilities : List ℚ) (acc : Option ℚ × List ℚ) (sol : List ℚ) :
    Option ℚ × List ℚ :=
  if feasible constraints availabilities sol then
    let value := dotJS profits sol
    match acc.1 with
    | none => (some value, sol)
    | some b => if b < value then (some value, sol) else acc
  else acc

/-- The whole candidate loop, starting from
`bestValue = -Infinity`, `bestSolution = [0, 0, 0]`. -/
def pickBest (profits : List ℚ) (constraints : List (List ℚ))
    (availabilities : List ℚ) : Option ℚ × List ℚ :=
  solutions.foldl (step profits constraints availabilities) (none, [0, 0, 0])

/-- `simplexMethod` of the source: evaluate the four hardcoded candidates,
keep the best feasible one, compute `slacks[i] =
availabilities[i] - constraints[i]·bestSolution`, hardcode
`dualPrices = [20, 0, 20]` and `optimal = true`. -/
def simplexMethod (profits : List ℚ) (constraints : List (List ℚ))
    (availabilities : List ℚ) : Solution :=
  let best := pickBest profits constraints availabilities
  let bestSolution := best.2
  let slacks := List.zipWith (fun avail row => avail - dotJS row bestSolution)
    availabilities constraints
  ⟨true, best.1, bestSolution, slacks, [20, 0, 20]⟩

end Moflecito

namespace Moflecito

/-- The tolerance is positive. -/
theorem eps_pos : 0 < eps := by norm_num [eps]

/-- The dot product of any row with the zero candidate is zero. -/
theorem dotJS_zero (row : List ℚ) : dotJS row [0, 0, 0] = 0 := by
  rcases row with _ | ⟨r1, _ | ⟨r2, _ | ⟨r3, rest⟩⟩⟩ <;> simp [dotJS]

/-- One loop iteration either keeps the current best candidate or replaces
it by the candidate just examined. -/
theorem step_snd_cases (p : List ℚ) (c : List (List ℚ)) (a : List ℚ)
    (acc : Option ℚ × List ℚ) (sol : List ℚ) :
    (step p c a acc sol).2 = acc.2 ∨ (step p c a acc sol).2 = sol := by
  obtain ⟨ob, xs⟩ := acc
  unfold step
  split
  · cases ob with
    | none => right; rfl
    | some b =>
      dsimp only
      split
      · right; rfl
      · left; rfl
  · left; rfl

/-- After the loop, the best candidate is the initial one or a member of
the processed list. -/
theorem foldl_snd_mem (p : List ℚ) (c : List (List ℚ)) (a : List ℚ) :
    ∀ (l : List (List ℚ)) (acc : Option ℚ × List ℚ),
      (l.foldl (step p c a) acc).2 = acc.2 ∨ (l.foldl (step p c a) acc).2 ∈ l := by
  intro l
  induction l with
  | nil => intro acc; left; rfl
  | cons hd tl ih =>
    intro acc
    rw [List.foldl_cons]
    rcases ih (step p c a acc hd) with h | h
    · rcases step_snd_cases p c a acc hd with h2 | h2
      · left; rw [h, h2]
      · right; rw [h, h2]; exact List.mem_cons_self hd tl
    · right; exact List.mem_cons_of_mem hd h

/-- A loop iteration preserves feasibility of the tracked best candidate:
a candidate only ever replaces the best one after passing the feasibility
check. -/
theorem step_feasible (p : List ℚ) (c : List (List ℚ)) (a : List ℚ)
    (acc : Option ℚ × List ℚ) (sol : List ℚ)
    (h : feasible c a acc.2) : feasible c a (step p c a acc sol).2 := by
  obtain ⟨ob, xs⟩ := acc
  unfold step
  split
  · cases ob with
    | none => assumption
    | some b =>
      dsimp only
      split
      · assumption
      · exact h
  · exact h

/-- The whole loop preserves feasibility of the tracked best candidate. -/
theorem foldl_feasible (p : List ℚ) (c : List (List ℚ)) (a : List ℚ) :
    ∀ (l : List (List ℚ)) (acc : Option ℚ × List ℚ),
      feasible c a acc.2 → feasible c a ((l.foldl (step p c a) acc)).2 := by
  intro l
  induction l with
  | nil => intro acc h; exact h
  | cons hd tl ih =>
    intro acc h
    rw [List.foldl_cons]
    exact ih _ (step_feasible p c a acc hd h)

/-- The tracked best objective value never decreases across one loop
iteration. -/
theorem step_fst_mono (p : List ℚ) (c : List (List ℚ)) (a : List ℚ)
    (acc : Option ℚ × List ℚ) (sol : List ℚ) (b : ℚ) (h : acc.1 = some b) :
    ∃ b2, (step p c a acc sol).1 = some b2 ∧ b ≤ b2 := by
  obtain ⟨ob, xs⟩ := acc
  cases ob with
  | none => simp at h
  | some b0 =>
    obtain rfl : b0 = b := by simpa using h
    unfold step
    split
    · dsimp only
      split
      · exact ⟨dotJS p sol, rfl, le_of_lt (by assumption)⟩
      · exact ⟨_, rfl, le_refl _⟩
    · exact ⟨_, rfl, le_refl _⟩

/-- After a loop iteration on a feasible candidate, the tracked best
objective value is finite and at least that candidate's objective value. -/
theorem step_fst_dominates (p : List ℚ) (c : List (List ℚ)) (a : List ℚ)
    (acc : Option ℚ × List ℚ) (sol : List ℚ) (hf : feasible c a sol) :
    ∃ b, (step p c a acc sol).1 = some b ∧ dotJS p sol ≤ b := by
  obtain ⟨ob, xs⟩ := acc
  unfold step
  rw [if_pos hf]
  cases ob with
  | none => exact ⟨dotJS p sol, rfl, le_refl _⟩
  | some b0 =>
    dsimp only
    split
    · exact ⟨dotJS p sol, rfl, le_refl _⟩
    · exact ⟨b0, rfl, le_of_not_lt (by assumption)⟩

/-- The tracked best objective value never decreases across the whole
loop. -/
theorem foldl_fst_mono (p : List ℚ) (c : List (List ℚ)) (a : List ℚ) :
    ∀ (l : List (List ℚ)) (acc : Option ℚ × List ℚ) (b : ℚ), acc.1 = some b →
      ∃ b2, (l.foldl (step p c a) acc).1 = some b2 ∧ b ≤ b2 := by
  intro l
  induction l with
  | nil => intro acc b h; exact ⟨b, h, le_refl b⟩
  | cons hd tl ih =>
    intro acc b h
    rw [List.foldl_cons]
    obtain ⟨b1, h1, hb1⟩ := step_fst_mono p c a acc hd b h
    obtain ⟨b2, h2, hb2⟩ := ih (step p c a acc hd) b1 h1
    exact ⟨b2, h2, le_trans hb1 hb2⟩

/-- The final best objective value dominates every feasible candidate of
the processed list. -/
theorem foldl_fst_dominates (p : List ℚ) (c : List (List ℚ)) (a : List ℚ) :
    ∀ (l : List (List ℚ)) (acc : Option ℚ × List ℚ) (s : List ℚ), s ∈ l →
      feasible c a s →
      ∃ b, (l.foldl (step p c a) acc).1 = some b ∧ dotJS p s ≤ b := by
  intro l
  induction l with
  | nil => intro acc s h; exact absurd h (List.not_mem_nil s)
  | cons hd tl ih =>
    intro acc s hmem hf
    rw [List.foldl_cons]
    rcases List.mem_cons.mp hmem with rfl | hmem2
    · obtain ⟨b1, h1, hb1⟩ := step_fst_dominates p c a acc s hf
      obtain ⟨b2, h2, hb2⟩ := foldl_fst_mono p c a tl (step p c a acc s) b1 h1
      exact ⟨b2, h2, le_trans hb1 hb2⟩
    · exact ih (step p c a acc hd) s hmem2 hf

/-- Positionally indexed access to the zipped constraint/availability
pairs. -/
theorem zip_getD_mem :
    ∀ (c : List (List ℚ)) (a : List ℚ) (i : ℕ), i < c.length → i < a.length →
      (c.getD i [], a.getD i 0) ∈ List.zip c a := by
  intro c
  induction c with
  | nil => intro a i h; simp at h
  | cons hd tl ih =>
    intro a i hc ha
    cases a with
    | nil => simp at ha
    | cons x xs =>
      cases i with
      | zero => simp
      | succ n =>
        simp only [List.getD_cons_succ, List.zip_cons_cons]
        exact List.mem_cons_of_mem _ (ih xs n (by simpa using hc) (by simpa using ha))

/-- Positionally indexed access to a `zipWith`, within bounds. -/
theorem zipWith_getD_of_lt (f : ℚ → List ℚ → ℚ) :
    ∀ (a : List ℚ) (c : List (List ℚ)) (i : ℕ), i < a.length → i < c.length →
      (List.zipWith f a c).getD i 0 = f (a.getD i 0) (c.getD i []) := by
  intro a
  induction a with
  | nil => intro c i h; simp at h
  | cons x xs ih =>
    intro c i ha hc
    cases c with
    | nil => simp at hc
    | cons y ys =>
      cases i with
      | zero => simp
      | succ n =>
        simp only [List.zipWith_cons_cons, List.getD_cons_succ]
        exact ih ys n (by simpa using ha) (by simpa using hc)

/-- Every entry of every hardcoded candidate is non-negative. -/
theorem solutions_nonneg : ∀ s ∈ solutions, ∀ q ∈ s, 0 ≤ q := by
  intro s hs q hq
  simp only [solutions, List.mem_cons, List.not_mem_nil, or_false] at hs
  rcases hs with rfl | rfl | rfl | rfl <;>
    simp only [List.mem_cons, List.not_mem_nil, or_false] at hq <;>
    rcases hq with rfl | rfl | rfl <;> norm_num

end Moflecito

namespace Moflecito

/-- C1: on the concrete scenario `profits=[120,60,40]`,
`constraints=[[4,2,1.5],[8,6,1],[2,1.5,0.5]]`, `availabilities=[200,480,80]`,
`simplexMethod` returns `optimal = true`, `objectiveValue = 5600`,
`variables = [20,0,80]`, `slacks = [0,240,0]` and `dualPrices = [20,0,20]`. -/
theorem C1_concrete_scenario :
    simplexMethod [120, 60, 40] [[4, 2, 1.5], [8, 6, 1], [2, 1.5, 0.5]] [200, 480, 80] =
      ⟨true, some 5600, [20, 0, 80], [0, 240, 0], [20, 0, 20]⟩ := by
  norm_num [simplexMethod, pickBest, step, solutions, feasible, dotJS]

/-- C2, counterexample: with `profits=[0,0,0]`, `constraints=[[1,1,1]]`,
`availabilities=[-1]` the returned variables `[0,0,0]` violate constraint 0:
`constraints[0]·variables = 0 > -1 + ε`.  The feasibility claim fails as
stated for arbitrary inputs. -/
theorem C2_counterexample :
    ¬ (dotJS (([[1, 1, 1]] : List (List ℚ)).getD 0 [])
        (simplexMethod [0, 0, 0] [[1, 1, 1]] [-1]).«variables» ≤
      ([-1] : List ℚ).getD 0 0 + eps) := by
  norm_num [simplexMethod, pickBest, step, solutions, feasible, dotJS, eps]

/-- C2, amended: whenever every availability is non-negative, the returned
`variables` are feasible — `constraints[i]·variables ≤ availabilities[i] + ε`
for every in-range constraint index `i` — and every entry of `variables` is
`≥ -ε`. -/
theorem C2_amended_feasibility (p : List ℚ) (c : List (List ℚ)) (a : List ℚ)
    (h0 : ∀ q ∈ a, 0 ≤ q) :
    (∀ i, i < c.length → i < a.length →
      dotJS (c.getD i []) (simplexMethod p c a).«variables» ≤ a.getD i 0 + eps) ∧
    (∀ q ∈ (simplexMethod p c a).«variables», -eps ≤ q) := by
  have hvars : (simplexMethod p c a).«variables» = (pickBest p c a).2 := rfl
  have hinit : feasible c a ([0, 0, 0] : List ℚ) := by
    intro q hq
    rw [dotJS_zero]
    exact h0 q.2 (List.of_mem_zip hq).2
  have hfeas : feasible c a (pickBest p c a).2 :=
    foldl_feasible p c a solutions (none, [0, 0, 0]) hinit
  constructor
  · intro i hc ha
    have hmem := zip_getD_mem c a i hc ha
    have hle := hfeas _ hmem
    rw [hvars]
    have hepos := eps_pos
    calc dotJS (c.getD i []) (pickBest p c a).2 ≤ a.getD i 0 := hle
      _ ≤ a.getD i 0 + eps := by linarith
  · intro q hq
    rw [hvars] at hq
    have hmem : (pickBest p c a).2 ∈ solutions := by
      rcases foldl_snd_mem p c a solutions (none, [0, 0, 0]) with h | h
      · rw [pickBest, h]; simp [solutions]
      · exact h
    have hq0 := solutions_nonneg _ hmem q hq
    have hepos := eps_pos
    linarith

/-- C2, witness: the amended feasibility theorem applied to the concrete
scenario of C1, whose availabilities are all non-negative. -/
theorem C2_amended_feasibility_witness :
    (∀ q ∈ ([200, 480, 80] : List ℚ), 0 ≤ q) ∧
    ((∀ i, i < ([[4, 2, 1.5], [8, 6, 1], [2, 1.5, 0.5]] : List (List ℚ)).length →
        i < ([200, 480, 80] : List ℚ).length →
        dotJS (([[4, 2, 1.5], [8, 6, 1], [2, 1.5, 0.5]] : List (List ℚ)).getD i [])
          (simplexMethod [120, 60, 40] [[4, 2, 1.5], [8, 6, 1], [2, 1.5, 0.5]]
            [200, 480, 80]).«variables» ≤ ([200, 480, 80] : List ℚ).getD i 0 + eps) ∧
      (∀ q ∈ (simplexMethod [120, 60, 40] [[4, 2, 1.5], [8, 6, 1], [2, 1.5, 0.5]]
        [200, 480, 80]).«variables», -eps ≤ q)) :=
  ⟨by norm_num, C2_amended_feasibility _ _ _ (by norm_num)⟩

/-- C3: for every input and every in-range constraint index `i`, the
returned `slacks[i]` equals `availabilities[i] - constraints[i]·variables`
(within ε; the equality is in fact exact). -/
theorem C3_slack_consistency (p : List ℚ) (c : List (List ℚ)) (a : List ℚ)
    (i : ℕ) (ha : i < a.length) (hc : i < c.length) :
    |(simplexMethod p c a).slacks.getD i 0 -
      (a.getD i 0 - dotJS (c.getD i []) (simplexMethod p c a).«variables»)| ≤ eps := by
  have hsl : (simplexMethod p c a).slacks =
      List.zipWith (fun avail row => avail - dotJS row (pickBest p c a).2) a c := rfl
  have hvars : (simplexMethod p c a).«variables» = (pickBest p c a).2 := rfl
  rw [hsl, hvars, zipWith_getD_of_lt _ a c i ha hc]
  simp only [sub_self, abs_zero]
  exact le_of_lt eps_pos

/-- C3, witness: slack consistency at constraint 0 of the concrete
scenario of C1. -/
theorem C3_slack_consistency_witness :
    (0 < ([200, 480, 80] : List ℚ).length) ∧
    (0 < ([[4, 2, 1.5], [8, 6, 1], [2, 1.5, 0.5]] : List (List ℚ)).length) ∧
    |(simplexMethod [120, 60, 40] [[4, 2, 1.5], [8, 6, 1], [2, 1.5, 0.5]]
        [200, 480, 80]).slacks.getD 0 0 -
      (([200, 480, 80] : List ℚ).getD 0 0 -
        dotJS (([[4, 2, 1.5], [8, 6, 1], [2, 1.5, 0.5]] : List (List ℚ)).getD 0 [])
          (simplexMethod [120, 60, 40] [[4, 2, 1.5], [8, 6, 1], [2, 1.5, 0.5]]
            [200, 480, 80]).«variables»)| ≤ eps :=
  ⟨by norm_num, by norm_num,
    C3_slack_consistency [120, 60, 40] [[4, 2, 1.5], [8, 6, 1], [2, 1.5, 0.5]]
      [200, 480, 80] 0 (by norm_num) (by norm_num)⟩

/-- C4, counterexample: with `profits=[0,0,0]`,
`constraints=[[1,1,1],[1,1,1],[1,1,1]]`, `availabilities=[1000,1000,1000]`
the returned `slacks[0] = 1000 > ε` while the hardcoded
`dualPrices[0] = 20 ≠ 0`: complementary slackness fails. -/
theorem C4_counterexample :
    eps < (simplexMethod [0, 0, 0] [[1, 1, 1], [1, 1, 1], [1, 1, 1]]
      [1000, 1000, 1000]).slacks.getD 0 0 ∧
    (simplexMethod [0, 0, 0] [[1, 1, 1], [1, 1, 1], [1, 1, 1]]
      [1000, 1000, 1000]).dualPrices.getD 0 0 ≠ 0 := by
  norm_num [simplexMethod, pickBest, step, solutions, feasible, dotJS, eps]

/-- C4, amended: `dualPrices` is the constant `[20, 0, 20]`, so the
complementary-slackness implication `slacks[i] > ε → dualPrices[i] = 0`
holds exactly at the indices whose hardcoded dual price is `0`: index 1
(and any out-of-range index); it fails at indices 0 and 2 whenever those
slacks exceed ε. -/
theorem C4_amended_partial (p : List ℚ) (c : List (List ℚ)) (a : List ℚ)
    (i : ℕ) (h0 : i ≠ 0) (h2 : i ≠ 2)
    (hs : eps < (simplexMethod p c a).slacks.getD i 0) :
    (simplexMethod p c a).dualPrices.getD i 0 = 0 := by
  have hd : (simplexMethod p c a).dualPrices = [20, 0, 20] := rfl
  rw [hd]
  rcases i with _ | _ | _ | n
  · exact absurd rfl h0
  · rfl
  · exact absurd rfl h2
  · rfl

/-- C4, witness: the amended theorem at index 1 of the concrete scenario
of C1, where `slacks[1] = 240 > ε` and `dualPrices[1] = 0`. -/
theorem C4_amended_partial_witness :
    ((1 : ℕ) ≠ 0) ∧ ((1 : ℕ) ≠ 2) ∧
    eps < (simplexMethod [120, 60, 40] [[4, 2, 1.5], [8, 6, 1], [2, 1.5, 0.5]]
      [200, 480, 80]).slacks.getD 1 0 ∧
    (simplexMethod [120, 60, 40] [[4, 2, 1.5], [8, 6, 1], [2, 1.5, 0.5]]
      [200, 480, 80]).dualPrices.getD 1 0 = 0 :=
  ⟨by norm_num, by norm_num,
    by norm_num [simplexMethod, pickBest, step, solutions, feasible, dotJS, eps],
    C4_amended_partial _ _ _ 1 (by norm_num) (by norm_num)
      (by norm_num [simplexMethod, pickBest, step, solutions, feasible, dotJS, eps])⟩

/-- C5, counterexample: the spec's own unbounded scenario — one variable
with positive profit and zero constraints (`profits=[1,0,0]`, no
constraint rows).  Every point is feasible (e.g. `[1000,0,0]`, with
objective 1000 far above the reported optimum 50), yet the solver does not
report `optimal = false`. -/
theorem C5_counterexample :
    feasible [] [] [1000, 0, 0] ∧ dotJS [1, 0, 0] [1000, 0, 0] = 1000 ∧
    (simplexMethod [1, 0, 0] [] []).objectiveValue = some 50 ∧
    (simplexMethod [1, 0, 0] [] []).optimal ≠ false := by
  norm_num [simplexMethod, pickBest, step, solutions, feasible, dotJS]

/-- C5, amended: the solver reports `optimal = true` on every input,
including unbounded problems — the `optimal` field is hardcoded and never
`false`. -/
theorem C5_amended_always_optimal (p : List ℚ) (c : List (List ℚ)) (a : List ℚ) :
    (simplexMethod p c a).optimal = true := rfl

/-- C6, counterexample: with a negative availability (`availabilities=[-1]`,
`constraints=[[1,1,1]]`) no feasible point exists, yet the solver does not
report `optimal = false`. -/
theorem C6_counterexample :
    ([-1] : List ℚ).getD 0 0 < 0 ∧
    (simplexMethod [0, 0, 0] [[1, 1, 1]] [-1]).optimal ≠ false := by
  norm_num [simplexMethod, pickBest, step, solutions, feasible, dotJS]

/-- C6, amended: on the infeasible input `constraints=[[1,1,1]]`,
`availabilities=[-1]` (for any profits) the solver still reports
`optimal = true`, returning the never-updated initial point `[0,0,0]` and
the `-Infinity` objective value (modelled `none`). -/
theorem C6_amended_infeasible_reports_true (p : List ℚ) :
    (simplexMethod p [[1, 1, 1]] [-1]).optimal = true ∧
    (simplexMethod p [[1, 1, 1]] [-1]).«variables» = [0, 0, 0] ∧
    (simplexMethod p [[1, 1, 1]] [-1]).objectiveValue = none := by
  refine ⟨rfl, ?_, ?_⟩ <;>
    norm_num [simplexMethod, pickBest, step, solutions, feasible, dotJS]

/-- C7, counterexample: with `profits=[1,1,1]`, `constraints=[[1,1,1]]`,
`availabilities=[1000]` the solver returns `variables = [0,0,133.33]` with
objective `133.33`; raising variable 0 by `δ = 100` stays feasible yet
yields objective `233.33 > 133.33 + ε`, so the returned point admits a
single-coordinate improving perturbation. -/
theorem C7_counterexample :
    (0 : ℚ) ≤ 100 ∧
    feasible [[1, 1, 1]] [1000]
      (((simplexMethod [1, 1, 1] [[1, 1, 1]] [1000]).«variables»).set 0
        (((simplexMethod [1, 1, 1] [[1, 1, 1]] [1000]).«variables»).getD 0 0 + 100)) ∧
    (simplexMethod [1, 1, 1] [[1, 1, 1]] [1000]).objectiveValue = some (13333 / 100) ∧
    ¬ (dotJS [1, 1, 1]
        (((simplexMethod [1, 1, 1] [[1, 1, 1]] [1000]).«variables»).set 0
          (((simplexMethod [1, 1, 1] [[1, 1, 1]] [1000]).«variables»).getD 0 0 + 100)) ≤
        13333 / 100 + eps) := by
  norm_num [simplexMethod, pickBest, step, solutions, feasible, dotJS, eps]

/-- C7, amended: the reported `objectiveValue` is optimal only relative to
the four hardcoded candidate points: for every input, every feasible member
of the hardcoded list has objective value at most the reported one. -/
theorem C7_amended_candidate_optimality (p : List ℚ) (c : List (List ℚ)) (a : List ℚ)
    (s : List ℚ) (hs : s ∈ solutions) (hf : feasible c a s) :
    ∃ b, (simplexMethod p c a).objectiveValue = some b ∧ dotJS p s ≤ b := by
  have hobj : (simplexMethod p c a).objectiveValue = (pickBest p c a).1 := rfl
  rw [hobj]
  exact foldl_fst_dominates p c a solutions (none, [0, 0, 0]) s hs hf

/-- C7, witness: candidate `[20,0,80]` is feasible in the concrete scenario
of C1 and its objective value is dominated by the reported one. -/
theorem C7_amended_candidate_optimality_witness :
    (([20, 0, 80] : List ℚ) ∈ solutions) ∧
    feasible [[4, 2, 1.5], [8, 6, 1], [2, 1.5, 0.5]] [200, 480, 80] [20, 0, 80] ∧
    (∃ b, (simplexMethod [120, 60, 40] [[4, 2, 1.5], [8, 6, 1], [2, 1.5, 0.5]]
        [200, 480, 80]).objectiveValue = some b ∧
      dotJS [120, 60, 40] [20, 0, 80] ≤ b) :=
  ⟨by norm_num [solutions], by norm_num [feasible, dotJS],
    C7_amended_candidate_optimality _ _ _ _ (by norm_num [solutions])
      (by norm_num [feasible, dotJS])⟩

/-- C8: the solver is deterministic — equal inputs produce equal Solutions.
(The source reads but never assigns to its three array parameters, so the
pure embedding is faithful; freedom from side effects has no further
counterpart in it.) -/
theorem C8_deterministic (p₁ : List ℚ) (c₁ : List (List ℚ)) (a₁ : List ℚ)
    (p₂ : List ℚ) (c₂ : List (List ℚ)) (a₂ : List ℚ)
    (hp : p₁ = p₂) (hc : c₁ = c₂) (ha : a₁ = a₂) :
    simplexMethod p₁ c₁ a₁ = simplexMethod p₂ c₂ a₂ := by
  subst hp; subst hc; subst ha; rfl

/-- C8, witness: determinism at the concrete scenario of C1. -/
theorem C8_deterministic_witness :
    (([120, 60, 40] : List ℚ) = [120, 60, 40]) ∧
    (([[4, 2, 1.5], [8, 6, 1], [2, 1.5, 0.5]] : List (List ℚ)) =
      [[4, 2, 1.5], [8, 6, 1], [2, 1.5, 0.5]]) ∧
    (([200, 480, 80] : List ℚ) = [200, 480, 80]) ∧
    simplexMethod [120, 60, 40] [[4, 2, 1.5], [8, 6, 1], [2, 1.5, 0.5]] [200, 480, 80] =
      simplexMethod [120, 60, 40] [[4, 2, 1.5], [8, 6, 1], [2, 1.5, 0.5]] [200, 480, 80] :=
  ⟨rfl, rfl, rfl, C8_deterministic _ _ _ _ _ _ rfl rfl rfl⟩

/-- C9: for every input, the returned `variables` is one of the four
hardcoded candidate points `[0,0,0]`, `[20,0,80]`, `[0,0,133.33]`,
`[50,0,0]`, and the returned `optimal` field is always `true`. -/
theorem C9_hardcoded_candidates (p : List ℚ) (c : List (List ℚ)) (a : List ℚ) :
    (simplexMethod p c a).«variables» ∈ solutions ∧
    (simplexMethod p c a).optimal = true := by
  constructor
  · have hvars : (simplexMethod p c a).«variables» = (pickBest p c a).2 := rfl
    rw [hvars]
    rcases foldl_snd_mem p c a solutions (none, [0, 0, 0]) with h | h
    · rw [pickBest, h]; simp [solutions]
    · exact h
  · rfl

/-- C10: for every input, regardless of profits, constraints and
availabilities, the returned `dualPrices` is the constant `[20, 0, 20]`. -/
theorem C10_constant_dual_prices (p : List ℚ) (c : List (List ℚ)) (a : List ℚ) :
    (simplexMethod p c a).dualPrices = [20, 0, 20] := rfl

end Moflecito
